import Mathlib

/-!
Formal model of the pinecone-mcp-helper content-to-vector pipeline.

Python strings are modelled as `List Char`; byte lengths are computed through an
explicit UTF-8 size function.  Python dictionaries that flow into JSON
serialization are modelled as association lists in insertion order, matching
the behaviour of `json.dumps` on (insertion-ordered) Python dicts.  Embedding
vector components are never inspected arithmetically by the packaging and
upsert code, so they are carried opaquely as rationals.
-/

namespace Ingest

/-- Python whitespace characters, as recognised by `str.strip()` and
`str.split()`: space, tab, newline, carriage return, vertical tab, form feed. -/
def isPySpace (c : Char) : Bool :=
  c.toNat == 32 || c.toNat == 9 || c.toNat == 10 || c.toNat == 13
    || c.toNat == 11 || c.toNat == 12

/-- Python `str.strip()`: remove leading and trailing whitespace. -/
def pyStrip (s : List Char) : List Char :=
  ((s.dropWhile isPySpace).reverse.dropWhile isPySpace).reverse

/-- Number of bytes of the UTF-8 encoding of one character. -/
def charUtf8Size (c : Char) : ℕ :=
  if c.toNat < 0x80 then 1
  else if c.toNat < 0x800 then 2
  else if c.toNat < 0x10000 then 3
  else 4

/-- Byte length of the UTF-8 encoding of a string: Python `len(s.encode("utf-8"))`. -/
def utf8Len (s : List Char) : ℕ :=
  (s.map charUtf8Size).sum

/-- Python `s.encode("utf-8")[:n].decode("utf-8", errors="ignore")` for `n ≥ 0`:
the longest character prefix whose UTF-8 encoding fits in `n` bytes (a trailing
partially-cut character is dropped by the lenient decode). -/
def truncUtf8Bytes : List Char → ℕ → List Char
  | [], _ => []
  | c :: cs, n => if charUtf8Size c ≤ n then c :: truncUtf8Bytes cs (n - charUtf8Size c) else []

/-- Lower-case hexadecimal digit. -/
def hexDigit (n : ℕ) : Char :=
  if n < 10 then Char.ofNat (48 + n) else Char.ofNat (87 + n)

/-- Four lower-case hex digits, as produced by the `\uXXXX` escapes of `json.dumps`. -/
def hex4 (n : ℕ) : List Char :=
  [hexDigit (n / 4096 % 16), hexDigit (n / 256 % 16), hexDigit (n / 16 % 16), hexDigit (n % 16)]

/-- Escaping of one character by `json.dumps` with its default `ensure_ascii=True`. -/
def jsonEscapeChar (c : Char) : List Char :=
  if c = '"' then ['\\', '"']
  else if c = '\\' then ['\\', '\\']
  else if c = '\n' then ['\\', 'n']
  else if c = '\t' then ['\\', 't']
  else if c = '\r' then ['\\', 'r']
  else if c = '\x08' then ['\\', 'b']
  else if c = '\x0c' then ['\\', 'f']
  else if 0x20 ≤ c.toNat ∧ c.toNat ≤ 0x7e then [c]
  else if c.toNat ≤ 0xffff then '\\' :: 'u' :: hex4 c.toNat
  else ('\\' :: 'u' :: hex4 (0xd800 + (c.toNat - 0x10000) / 0x400))
        ++ ('\\' :: 'u' :: hex4 (0xdc00 + (c.toNat - 0x10000) % 0x400))

/-- JSON serialization of a string (quotes plus escaped content). -/
def jsonString (s : List Char) : List Char :=
  '"' :: (s.map jsonEscapeChar).flatten ++ ['"']

/-- A metadata value: the packager only ever stores strings and booleans. -/
inductive PyVal : Type where
  | str (s : List Char)
  | boolean (b : Bool)
deriving DecidableEq

/-- JSON serialization of a metadata value. -/
def jsonVal : PyVal → List Char
  | .str s => jsonString s
  | .boolean b => if b then ['t', 'r', 'u', 'e'] else ['f', 'a', 'l', 's', 'e']

/-- One serialized key/value item, with the default `json.dumps` separator `": "`. -/
def jsonKV (kv : List Char × PyVal) : List Char :=
  jsonString kv.1 ++ (':' :: ' ' :: jsonVal kv.2)

/-- The key/value items of a serialized JSON object joined by the default
`json.dumps` separator `", "`. -/
def jsonItems : List (List Char × PyVal) → List Char
  | [] => []
  | kv :: rest => jsonKV kv ++ (if rest = [] then [] else ',' :: ' ' :: jsonItems rest)

/-- `json.dumps` of a dict whose items appear in insertion order.  All escaped
output is ASCII, so the UTF-8 byte length of the result is its character count. -/
def jsonDumps (m : List (List Char × PyVal)) : List Char :=
  '{' :: jsonItems m ++ ['}']

/-- A chunk dict as consumed by `prepare_vectors_for_upsert`: optional fields
model optional dict keys.  Vector components are opaque rationals. -/
structure Chunk : Type where
  text : List Char
  source_type : Option (List Char)
  file_path : Option (List Char)
  source_url : Option (List Char)
  embedding : Option (List ℚ)
deriving DecidableEq

/-- A vector record in the shape expected by the index upsert call. -/
structure VectorRec : Type where
  id : List Char
  values : List ℚ
  metadata : List (List Char × PyVal)
deriving DecidableEq

/-- `generate_vector_id`: prefix plus a dash plus the fresh unique token, or the
bare token when the prefix is empty.  The token itself is supplied externally. -/
def generate_vector_id (pre : List Char) (uuid : List Char) : List Char :=
  if pre ≠ [] then pre ++ '-' :: uuid else uuid

/-- The 40 KiB metadata budget hard-coded in `prepare_vectors_for_upsert`. -/
def MAX_METADATA_SIZE : ℕ := 40 * 1024

/-- Upper bound of the Python byte slice `b[:j]` on a byte string of length
`len`: negative `j` counts from the end, and the bound is clamped to `[0, len]`. -/
def pySliceUpper (len : ℕ) (j : ℤ) : ℕ :=
  if j < 0 then ((len : ℤ) + j).toNat else min j.toNat len

/-- The metadata dict built by `prepare_vectors_for_upsert` before the text is
added: `source_type` (with the `"unknown"` default), then `file_path` for
repository chunks that carry one, else `source_url` for chunks whose
`source_type` is the string `"firecrawl"` and that carry one. -/
def baseMetadata (c : Chunk) : List (List Char × PyVal) :=
  let md0 : List (List Char × PyVal) :=
    [("source_type".toList, PyVal.str (c.source_type.getD "unknown".toList))]
  if c.source_type = some "repository".toList ∧ c.file_path.isSome then
    md0 ++ [("file_path".toList, PyVal.str (c.file_path.getD []))]
  else if c.source_type = some "firecrawl".toList ∧ c.source_url.isSome then
    md0 ++ [("source_url".toList, PyVal.str (c.source_url.getD []))]
  else md0

/-- The metadata dict after the text-budget step of `prepare_vectors_for_upsert`:
the base metadata, then the (possibly truncated) text, then the `truncated`
flag exactly when the truncation branch fired. -/
def packagedMetadata (c : Chunk) : List (List Char × PyVal) :=
  let md1 : List (List Char × PyVal) := baseMetadata c
  let metadata_size : ℕ := (jsonDumps md1).length
  let available_space : ℤ := (MAX_METADATA_SIZE : ℤ) - metadata_size - 10
  if (utf8Len c.text : ℤ) > available_space then
    let truncated_text := truncUtf8Bytes c.text (pySliceUpper (utf8Len c.text) available_space)
    md1 ++ [("text".toList, PyVal.str truncated_text), ("truncated".toList, PyVal.boolean true)]
  else
    md1 ++ [("text".toList, PyVal.str c.text)]

/-- Body of the per-chunk loop of `prepare_vectors_for_upsert`, given the fresh
unique token used for this record. -/
def prepareOne (uuid : List Char) (c : Chunk) : VectorRec :=
  { id := generate_vector_id (c.source_type.getD []) uuid
    values := c.embedding.getD []
    metadata := packagedMetadata c }

/-- The loop of `prepare_vectors_for_upsert`, threading an index into the
external supply of fresh unique tokens. -/
def prepareVectors (uuids : ℕ → List Char) : ℕ → List Chunk → List VectorRec
  | _, [] => []
  | i, c :: cs => prepareOne (uuids i) c :: prepareVectors uuids (i + 1) cs

/-- `prepare_vectors_for_upsert`, parameterised by the supply of fresh unique
tokens that the UUID generator produces. -/
def prepare_vectors_for_upsert (uuids : ℕ → List Char) (chunks : List Chunk) : List VectorRec :=
  prepareVectors uuids 0 chunks

/-- Whether a serialized-metadata association list carries a given key. -/
def hasKey (k : List Char) (m : List (List Char × PyVal)) : Bool :=
  m.any fun kv => kv.1 == k

/-- Value stored under a key in a metadata association list. -/
def getVal (k : List Char) (m : List (List Char × PyVal)) : Option PyVal :=
  (m.find? fun kv => kv.1 == k).map fun kv => kv.2

/-- The typed error of the embedding stage: `embed_chunks` only ever raises a
dimension mismatch (carrying the expected and the actual length) when the
embedding function itself is pure. -/
inductive EmbeddingError : Type where
  | dimensionMismatch (expected actual : ℕ)
deriving DecidableEq

/-- The chunk copy built by `embed_chunks`: the input chunk with the embedding
entry set to the output of the embedding function on its text. -/
def withEmbedding (f : List Char → List ℚ) (c : Chunk) : Chunk :=
  { text := c.text
    source_type := c.source_type
    file_path := c.file_path
    source_url := c.source_url
    embedding := some (f c.text) }

/-- `embed_chunks`: skip chunks with empty (or missing, defaulted-empty) text,
embed the rest, and abort with a dimension-mismatch error as soon as one
embedding has the wrong length. -/
def embed_chunks (f : List Char → List ℚ) (dimension : ℕ) :
    List Chunk → Except EmbeddingError (List Chunk)
  | [] => Except.ok []
  | c :: cs =>
    if c.text = [] then embed_chunks f dimension cs
    else if (f c.text).length ≠ dimension then
      Except.error (EmbeddingError.dimensionMismatch dimension (f c.text).length)
    else
      match embed_chunks f dimension cs with
      | Except.error e => Except.error e
      | Except.ok rest => Except.ok (withEmbedding f c :: rest)

/-- The acknowledgment shapes `upsert_vectors` recognises: a REST dict with an
optional `upserted_count` entry, a GRPC response object with an
`upserted_count` attribute, or anything else. -/
inductive UpsertAck : Type where
  | restDict (upserted_count : Option ℕ)
  | grpc (upserted_count : ℕ)
  | unknownShape
deriving DecidableEq

/-- Per-batch count extraction of `upsert_vectors`: the REST dict entry with
the batch length as dict-get default, the GRPC attribute, or the optimistic
full-batch fallback. -/
def ackCount (a : UpsertAck) (batchLen : ℕ) : ℕ :=
  match a with
  | .restDict c => c.getD batchLen
  | .grpc n => n
  | .unknownShape => batchLen

/-- The batching loop of `upsert_vectors` with batch size `bs1 + 1`: issue one
index call per contiguous slice, accumulating the acknowledged counts; any
error aborts the whole run. -/
def upsertLoop (ack : List VectorRec → Except (List Char) UpsertAck) (bs1 : ℕ) :
    List VectorRec → ℕ → Except (List Char) ℕ
  | [], total => Except.ok total
  | v :: vs, total =>
    match ack ((v :: vs).take (bs1 + 1)) with
    | Except.error e => Except.error e
    | Except.ok a =>
      upsertLoop ack bs1 ((v :: vs).drop (bs1 + 1))
        (total + ackCount a ((v :: vs).take (bs1 + 1)).length)
  termination_by vs _ => vs.length
  decreasing_by simp [List.length_drop]; omega

/-- `upsert_vectors`, parameterised by the behaviour of the index upsert call.
A zero batch size makes the Python `range` call raise, which the wrapper
converts into a storage error. -/
def upsert_vectors (ack : List VectorRec → Except (List Char) UpsertAck)
    (vectors : List VectorRec) (batch_size : ℕ) : Except (List Char) ℕ :=
  match batch_size with
  | 0 => Except.error "range() arg 3 must not be zero".toList
  | bs1 + 1 => upsertLoop ack bs1 vectors 0

/-- The contiguous slices `vectors[i : i + batch_size]` that the batching loop
passes to the index, for batch size `bs1 + 1`. -/
def upsertBatches (bs1 : ℕ) : List VectorRec → List (List VectorRec)
  | [] => []
  | v :: vs => (v :: vs).take (bs1 + 1) :: upsertBatches bs1 ((v :: vs).drop (bs1 + 1))
  termination_by vs => vs.length
  decreasing_by simp [List.length_drop]; omega

/-- An index call that acknowledges exactly the length of each batch. -/
def ackLen : List VectorRec → Except (List Char) UpsertAck :=
  fun batch => Except.ok (UpsertAck.grpc batch.length)

/-- A record with empty fields, used to instantiate the upsert theorems. -/
def dummyRec : VectorRec :=
  { id := [], values := [], metadata := [] }

/-- A two-dimensional embedding function, used to instantiate the embedding
theorems. -/
def f0 : List Char → List ℚ :=
  fun _ => [0, 0]

/-- A chunk with non-empty text and no embedding. -/
def chunkA : Chunk :=
  { text := "hi".toList, source_type := none, file_path := none, source_url := none
    embedding := none }

/-- A chunk with empty text: the embedding stage must skip it. -/
def chunkB : Chunk :=
  { text := [], source_type := none, file_path := none, source_url := none
    embedding := none }

/-- Whether `pat` is a prefix of `s`. -/
def startsWith : List Char → List Char → Bool
  | _, [] => true
  | [], _ :: _ => false
  | c :: cs, p :: ps => c = p && startsWith cs ps

/-- Python `pat in s` for a non-empty pattern: whether `pat` occurs in `s`. -/
def containsSub (s pat : List Char) : Bool :=
  match s with
  | [] => pat = []
  | _ :: cs => startsWith s pat || containsSub cs pat

/-- The structural marker the fallback extractor splits the corpus dump on. -/
def DIR_MARKER : List Char := "<directory_structure>".toList

/-- Python `s.split("<directory_structure>")`. -/
def splitMarker : List Char → List (List Char)
  | [] => [[]]
  | c :: cs =>
    if startsWith (c :: cs) DIR_MARKER then
      [] :: splitMarker ((c :: cs).drop DIR_MARKER.length)
    else
      match splitMarker cs with
      | [] => [[c]]
      | seg :: rest => (c :: seg) :: rest
  termination_by s => s.length
  decreasing_by
    all_goals simp [List.length_drop]
    decide

/-- First occurrence split: `some (before, after)` when `pat` occurs in `s`. -/
def splitOnFirst (pat : List Char) : List Char → Option (List Char × List Char)
  | [] => if pat = [] then some ([], []) else none
  | c :: cs =>
    if startsWith (c :: cs) pat then some ([], (c :: cs).drop pat.length)
    else (splitOnFirst pat cs).map fun p => (c :: p.1, p.2)

/-- The literal pieces of the fallback file-section pattern
`<file path="([^"]+)">(.*?)</file>`. -/
def OPEN_TAG : List Char := "<file path=\x22".toList

/-- The closing literal of the fallback file-section pattern. -/
def CLOSE_TAG : List Char := "</file>".toList

/-- One attempted match of the file-section pattern at the head of `s`:
the greedy non-quote path capture (at least one character), the literal
quote-and-bracket, then the shortest body ending at the next closing tag.
Returns the captures and the remaining input after the match. -/
def matchFileSection (s : List Char) : Option (List Char × List Char × List Char) :=
  if startsWith s OPEN_TAG then
    let s1 := s.drop OPEN_TAG.length
    let path := s1.takeWhile fun x => x ≠ '\x22'
    if path = [] then none
    else
      let s2 := s1.drop path.length
      if startsWith s2 "\x22>".toList then
        match splitOnFirst CLOSE_TAG (s2.drop 2) with
        | some (body, rest) => some (path, body, rest)
        | none => none
      else none
  else none

/-- The scan of `re.findall` for the file-section pattern: attempt a match at
every position, skipping past each successful match.  The fuel starts at the
input length, which bounds the number of steps because every step consumes at
least one character. -/
def findFileSectionsAux : ℕ → List Char → List (List Char × List Char)
  | 0, _ => []
  | fuel + 1, s =>
    match s with
    | [] => []
    | c :: cs =>
      match matchFileSection (c :: cs) with
      | some (path, body, rest) => (path, body) :: findFileSectionsAux fuel rest
      | none => findFileSectionsAux fuel cs

/-- `re.findall` of the fallback file-section pattern over the dump text. -/
def findFileSections (s : List Char) : List (List Char × List Char) :=
  findFileSectionsAux s.length s

/-- The typed error of the Chunk Extractor: only a missing corpus file
propagates. -/
inductive RepomixError : Type where
  | fileNotFound
deriving DecidableEq

/-- The synthetic chunk returned when parsing raises an unexpected error. -/
def errorChunk (msg : List Char) : Chunk :=
  { text := "Error parsing Repomix output: ".toList ++ msg
    source_type := some "error".toList
    file_path := some "error.txt".toList
    source_url := none
    embedding := none }

/-- The outcome of the external XML parse: a parse failure (recovered via the
fallback path) or a parsed tree given as the `(path attribute, text)` pairs of
its file nodes. -/
inductive XmlOutcome : Type where
  | parseFailure
  | parsed (files : List (Option (List Char) × Option (List Char)))
deriving DecidableEq

/-- The chunks extracted from parsed file nodes: one repository chunk per node
with a non-empty path attribute; nodes without one are skipped. -/
def xmlChunks (files : List (Option (List Char) × Option (List Char))) : List Chunk :=
  files.filterMap fun f =>
    match f.1 with
    | none => none
    | some p =>
      if p = [] then none
      else some
        { text := (f.2).getD []
          source_type := some "repository".toList
          file_path := some p
          source_url := none
          embedding := none }

/-- The fallback extraction: a summary chunk from the text before the first
structural marker, one chunk per matched file section, and a directory-listing
chunk when no file sections were found but the marker is present. -/
def fallbackChunks (content : List Char) : List Chunk :=
  let summary :=
    if containsSub content DIR_MARKER then (splitMarker content).headD [] else content
  let base : List Chunk :=
    [{ text := pyStrip summary
       source_type := some "repository".toList
       file_path := some "repository_summary.txt".toList
       source_url := none
       embedding := none }]
  let fileChunks : List Chunk :=
    (findFileSections content).map fun pb =>
      { text := pyStrip pb.2
        source_type := some "repository".toList
        file_path := some pb.1
        source_url := none
        embedding := none }
  let chunks := base ++ fileChunks
  if chunks.length = 1 ∧ containsSub content DIR_MARKER then
    chunks ++
      [{ text := pyStrip ((splitMarker content).getD 1 [])
         source_type := some "repository".toList
         file_path := some "directory_structure.txt".toList
         source_url := none
         embedding := none }]
  else chunks

/-- `parse_repomix_output`, parameterised by the outcome of opening the file
(`none` models a missing file), the outcome of the external XML parse, and
whether some other unexpected error is raised while processing (`some msg`
models the exception caught by the generic handler). -/
def parse_repomix_output (read : Option (List Char)) (xml : XmlOutcome)
    (unexpected : Option (List Char)) : Except RepomixError (List Chunk) :=
  match read with
  | none => Except.error RepomixError.fileNotFound
  | some content =>
    match unexpected with
    | some msg => Except.ok [errorChunk msg]
    | none =>
      match xml with
      | XmlOutcome.parsed files =>
        let chunks := xmlChunks files
        if chunks ≠ [] then Except.ok chunks
        else Except.ok (fallbackChunks content)
      | XmlOutcome.parseFailure => Except.ok (fallbackChunks content)

/-- One similarity-query match: its optional score and its metadata mapping. -/
structure QueryMatch : Type where
  score : Option ℚ
  metadata : List (List Char × PyVal)
deriving DecidableEq

/-- Whether one metadata entry matches a sampled identifier: the value is a
string and either contains the identifier or is contained in it. -/
def kvMatches (fp : List Char) (kv : List Char × PyVal) : Bool :=
  match kv.2 with
  | PyVal.str v => containsSub v fp || containsSub fp v
  | PyVal.boolean _ => false

/-- The first query match carrying a metadata entry that matches the sampled
identifier, together with that first matching entry. -/
def matchEntry (fp : List Char) : List QueryMatch → Option (QueryMatch × (List Char × PyVal))
  | [] => none
  | m :: rest =>
    match m.metadata.find? (kvMatches fp) with
    | some kv => some (m, kv)
    | none => matchEntry fp rest

/-- The string payload of a metadata value. -/
def pyStrOf : PyVal → List Char
  | PyVal.str s => s
  | PyVal.boolean _ => []

/-- One per-identifier validation result dict; absent dict keys are `none`. -/
structure VResult : Type where
  file_path : List Char
  found : Bool
  match_field : Option (List Char)
  match_value : Option (List Char)
  score : Option (Option ℚ)
  error : Option (List Char)
deriving DecidableEq

/-- The per-identifier result of a found match. -/
def foundResult (fp : List Char) (m : QueryMatch) (kv : List Char × PyVal) : VResult :=
  { file_path := fp, found := true, match_field := some kv.1
    match_value := some (pyStrOf kv.2), score := some m.score, error := none }

/-- The per-identifier probe of the Ingestion Validator: query with the first
probe vector, scan all matches for a metadata string containing (or contained
in) the identifier, retry once with the alternate probe vector, and record a
not-found result when both attempts fail; an exception from the first query is
caught and recorded on the result, an exception from the second is caught and
leaves the identifier not found. -/
def validatePath (q1 q2 : List Char → Except (List Char) (List QueryMatch))
    (fp : List Char) : VResult :=
  match q1 fp with
  | Except.error e =>
    { file_path := fp, found := false, match_field := none, match_value := none
      score := none, error := some e }
  | Except.ok ms =>
    match matchEntry fp ms with
    | some (m, kv) => foundResult fp m kv
    | none =>
      match q2 fp with
      | Except.error _ =>
        { file_path := fp, found := false, match_field := none, match_value := none
          score := none, error := none }
      | Except.ok ms2 =>
        match matchEntry fp ms2 with
        | some (m, kv) => foundResult fp m kv
        | none =>
          { file_path := fp, found := false, match_field := none, match_value := none
            score := none, error := none }

/-- The sample size the validator requests: up to 5 identifiers. -/
def sample_size (n : ℕ) : ℕ := min 5 n

/-- The aggregate report of the Ingestion Validator. -/
structure ValidationReport : Type where
  success : Bool
  success_rate : ℚ
  found_count : ℕ
  total_count : ℕ
  results : List VResult
deriving DecidableEq

/-- The post-sampling portion of `validate_repository_ingestion`: probe every
sampled identifier, then declare success when the empirical confirmation rate
reaches the 0.6 threshold.  (All reachable rates have denominator at most 5,
for which the rational comparison coincides with the float comparison the code
performs.) -/
def validateSampledPaths (samplePaths : List (List Char))
    (q1 q2 : List Char → Except (List Char) (List QueryMatch)) : ValidationReport :=
  let results := samplePaths.map (validatePath q1 q2)
  let found_count := (results.filter fun r => r.found).length
  let success_rate : ℚ :=
    if results.length = 0 then 0 else (found_count : ℚ) / (results.length : ℚ)
  { success := decide (success_rate ≥ 3 / 5)
    success_rate := success_rate
    found_count := found_count
    total_count := results.length
    results := results }

/-- A first probe that always raises, used to instantiate the validator
theorems. -/
def q1err : List Char → Except (List Char) (List QueryMatch) :=
  fun _ => Except.error "boom".toList

/-- A second probe that returns no matches. -/
def q2nil : List Char → Except (List Char) (List QueryMatch) :=
  fun _ => Except.ok []

/-- The segments of a string cut at every whitespace character, empty segments
included: the right fold that underlies Python `str.split()`. -/
def splitRuns (s : List Char) : List (List Char) :=
  s.foldr
    (fun c acc =>
      if isPySpace c then [] :: acc
      else
        match acc with
        | [] => [[c]]
        | w :: rest => (c :: w) :: rest)
    []

/-- Python `str.split()` with no separator: the maximal non-empty runs of
non-whitespace characters. -/
def pySplitWs (s : List Char) : List (List Char) :=
  (splitRuns s).filter fun w => !w.isEmpty

/-- Python `str.lower()` on the ASCII range (the case mapping outside ASCII is
irrelevant to every property stated about the sparse embedding). -/
def pyLowerChar (c : Char) : Char :=
  if 65 ≤ c.toNat ∧ c.toNat ≤ 90 then Char.ofNat (c.toNat + 32) else c

/-- Sum of squares of a vector of reals: the quantity that equals one exactly
for L2-normalized vectors. -/
noncomputable def sumSq (l : List ℝ) : ℝ :=
  (l.map fun x => x ^ 2).sum

/-- The hashing-based sparse embedding behind `pinecone-sparse-english-v0`,
parameterised by the Python `hash` function: empty or whitespace-only text
yields the 384-dimensional zero vector; otherwise every lower-cased word is
hashed into one of 384 buckets, the hit buckets are set to one, and the vector
is divided by its Euclidean norm when that norm is positive.  The function is
total: it never raises. -/
noncomputable def pinecone_sparse_embed (h : List Char → ℤ) (text : List Char) : List ℝ :=
  if text = [] ∨ pyStrip text = [] then List.replicate 384 0
  else
    let words := pySplitWs (text.map pyLowerChar)
    let idxs := words.map fun w => ((h w) % 384).toNat
    let v : Fin 384 → ℝ := fun i => if i.val ∈ idxs then 1 else 0
    let norm : ℝ := Real.sqrt (∑ i, v i ^ 2)
    if 0 < norm then List.ofFn (fun i => v i / norm) else List.ofFn v

/-- Normalization of a Python index bound on a string of length `L`: negative
indices count from the end, and the result is clamped into `[0, L]`. -/
def pyNorm (L : ℕ) (i : ℤ) : ℕ :=
  if i < 0 then ((L : ℤ) + i).toNat else min i.toNat L

/-- Python slice `s[i:j]` with full negative-index and clamping semantics. -/
def pySlice (s : List Char) (i j : ℤ) : List Char :=
  (s.drop (pyNorm s.length i)).take (pyNorm s.length j - pyNorm s.length i)

/-- Index of the last space in a list, when one exists. -/
def lastSpaceIdx : List Char → Option ℕ
  | [] => none
  | c :: cs =>
    match lastSpaceIdx cs with
    | some k => some (k + 1)
    | none => if c = ' ' then some 0 else none

/-- Python `s.rfind(" ", i, j)`: the largest absolute index of a space inside
the normalized range, or `-1` when there is none. -/
def pyRfindSpace (s : List Char) (i j : ℤ) : ℤ :=
  let lo := pyNorm s.length i
  let hi := pyNorm s.length j
  match lastSpaceIdx ((s.drop lo).take (hi - lo)) with
  | some k => (lo : ℤ) + k
  | none => -1

/-- The adjusted window end of one iteration of `chunk_firecrawl_content`:
the window right edge, retracted to the last space inside the window when the
edge falls inside the string and such a space exists, or the string end when
the edge falls beyond it. -/
def chunkEnd (content : List Char) (max_chunk_size : ℕ) (start : ℤ) : ℤ :=
  if start + (max_chunk_size : ℤ) < (content.length : ℤ) then
    if pyRfindSpace content start (start + (max_chunk_size : ℤ)) ≠ -1 then
      pyRfindSpace content start (start + (max_chunk_size : ℤ))
    else start + (max_chunk_size : ℤ)
  else (content.length : ℤ)

/-- The `while start < len(content)` loop of `chunk_firecrawl_content`,
instrumented with fuel: `none` means the loop has not finished within the
given number of iterations (in particular, for a non-advancing window no
amount of fuel ever suffices).  Each iteration extracts the stripped window
slice, appends it when non-empty, and moves the start to the adjusted end
minus the overlap. -/
def chunkLoop (content : List Char) (max_chunk_size overlap : ℕ) :
    ℕ → ℤ → List (List Char) → Option (List (List Char))
  | 0, _, _ => none
  | fuel + 1, start, acc =>
    if start < (content.length : ℤ) then
      chunkLoop content max_chunk_size overlap fuel
        (chunkEnd content max_chunk_size start - overlap)
        (if pyStrip (pySlice content start (chunkEnd content max_chunk_size start)) ≠ [] then
          acc ++ [pyStrip (pySlice content start (chunkEnd content max_chunk_size start))]
        else acc)
    else some acc

/-- `chunk_firecrawl_content` with fuel-instrumented iteration: text at most
`max_chunk_size` long is returned whole as a single piece, anything longer
goes through the window loop. -/
def chunk_firecrawl_content (fuel : ℕ) (content : List Char)
    (max_chunk_size overlap : ℕ) : Option (List (List Char)) :=
  if content.length ≤ max_chunk_size then some [content]
  else chunkLoop content max_chunk_size overlap fuel 0 []

/-- A web-search chunk as produced by the search stage: its `source_type` is
`web_search` and it carries a source URL. -/
def webChunkEx : Chunk :=
  { text := "hello".toList
    source_type := some "web_search".toList
    file_path := none
    source_url := some "https://example.com".toList
    embedding := some [1, 2] }

/-- A repository chunk with a file path, used to instantiate general lemmas. -/
def repoChunkEx : Chunk :=
  { text := "print(1)".toList
    source_type := some "repository".toList
    file_path := some "a.py".toList
    source_url := none
    embedding := some [0] }

/-- A repository chunk whose text is 40922 copies of the letter a: large enough
to trigger the truncation branch of the packager. -/
def bigChunk : Chunk :=
  { text := List.replicate 40922 'a'
    source_type := some "repository".toList
    file_path := none
    source_url := none
    embedding := some [] }

/-!
## Theorems
-/

/-- Flattening identical singleton blocks yields one replicated list. -/
theorem flatten_replicate_singleton (c : Char) :
    ∀ n : ℕ, (List.replicate n [c]).flatten = List.replicate n c := by
  intro n
  induction n with
  | zero => rfl
  | succ n ih => simp [List.replicate_succ, ih]

/-- UTF-8 byte length of a replicated character. -/
theorem utf8Len_replicate (n : ℕ) (c : Char) :
    utf8Len (List.replicate n c) = n * charUtf8Size c := by
  induction n with
  | zero => simp [utf8Len]
  | succ n ih =>
    simp only [List.replicate_succ, utf8Len, List.map_cons, List.sum_cons] at ih ⊢
    rw [ih, Nat.succ_mul]
    omega

/-- Byte truncation of a replicated one-byte character keeps `min n k` copies. -/
theorem truncUtf8Bytes_replicate (c : Char) (h : charUtf8Size c = 1) :
    ∀ n k : ℕ, truncUtf8Bytes (List.replicate n c) k = List.replicate (min n k) c := by
  intro n
  induction n with
  | zero => intro k; simp [truncUtf8Bytes]
  | succ n ih =>
    intro k
    rw [List.replicate_succ, truncUtf8Bytes, h]
    by_cases hk : 1 ≤ k
    · rw [if_pos hk, ih (k - 1)]
      have : min (n + 1) k = min n (k - 1) + 1 := by omega
      rw [this, List.replicate_succ]
    · rw [if_neg hk]
      have : min (n + 1) k = 0 := by omega
      rw [this, List.replicate_zero]

/-- JSON string serialization of replicated unescaped characters. -/
theorem jsonString_replicate (c : Char) (h : jsonEscapeChar c = [c]) (n : ℕ) :
    jsonString (List.replicate n c) = '"' :: List.replicate n c ++ ['"'] := by
  rw [jsonString, List.map_replicate, h, flatten_replicate_singleton]

/-- The record values field is the embedding dict entry with its `[]` default. -/
theorem values_prepareOne (uuid : List Char) (c : Chunk) :
    (prepareOne uuid c).values = c.embedding.getD [] := rfl

/-- Helper: the packaging loop maps each chunk to one record carrying its
embedding unchanged, regardless of the token index. -/
theorem prepareVectors_values (uuids : ℕ → List Char) (i : ℕ) (chunks : List Chunk) :
    (prepareVectors uuids i chunks).map VectorRec.values
      = chunks.map fun c => c.embedding.getD [] := by
  induction chunks generalizing i with
  | nil => rfl
  | cons c cs ih => simp [prepareVectors, values_prepareOne, ih]

/-- The packaged metadata of a record is the output of the text-budget step. -/
theorem prepareOne_metadata_shape (uuid : List Char) (c : Chunk) :
    (prepareOne uuid c).metadata = packagedMetadata c := by
  unfold prepareOne
  simp only []

/-- Helper: the exact metadata packaged for the oversized repository chunk:
the truncation branch fires and keeps 40921 of the 40922 text bytes. -/
theorem packagedMetadata_bigChunk :
    packagedMetadata bigChunk
      = [("source_type".toList, PyVal.str "repository".toList),
         ("text".toList, PyVal.str (List.replicate 40921 'a')),
         ("truncated".toList, PyVal.boolean true)] := by
  have hbase : baseMetadata bigChunk = [("source_type".toList, PyVal.str "repository".toList)] := by
    decide
  have hsize : (jsonDumps [("source_type".toList, PyVal.str "repository".toList)]).length = 29 := by
    decide
  have htext : bigChunk.text = List.replicate 40922 'a' := rfl
  have hone : charUtf8Size 'a' = 1 := by decide
  have hlen : utf8Len bigChunk.text = 40922 := by
    rw [htext, utf8Len_replicate, hone, Nat.mul_one]
  unfold packagedMetadata
  simp only [hbase]
  rw [hsize, hlen, htext]
  rw [truncUtf8Bytes_replicate 'a' hone]
  norm_num [MAX_METADATA_SIZE, pySliceUpper]
  decide

/-- Helper: serialized length of the quoted replicated-letter JSON string. -/
theorem jsonString_replicate_len (n : ℕ) :
    (jsonString (List.replicate n 'a')).length = n + 2 := by
  rw [jsonString_replicate 'a' (by decide)]
  simp only [List.length_cons, List.length_append, List.length_replicate, List.length_nil]

/-- Helper: serialized length of the whole packaged metadata dict for a
repository chunk whose stored text is the letter a repeated `n` times. -/
theorem jsonDumps_bigChunk_len (n : ℕ) :
    (jsonDumps [("source_type".toList, PyVal.str "repository".toList),
                ("text".toList, PyVal.str (List.replicate n 'a')),
                ("truncated".toList, PyVal.boolean true)]).length = n + 60 := by
  have hkv1 : (jsonKV ("source_type".toList, PyVal.str "repository".toList)).length = 27 := by
    decide
  have hkv3 : (jsonKV ("truncated".toList, PyVal.boolean true)).length = 17 := by decide
  have hq : (jsonString "text".toList).length = 6 := by decide
  have hkv2 : (jsonKV ("text".toList, PyVal.str (List.replicate n 'a'))).length = n + 10 := by
    rw [jsonKV]
    simp only [jsonVal]
    rw [List.length_append, hq, List.length_cons, List.length_cons, jsonString_replicate_len]
    omega
  rw [jsonDumps]
  rw [show jsonItems
        [("source_type".toList, PyVal.str "repository".toList),
         ("text".toList, PyVal.str (List.replicate n 'a')),
         ("truncated".toList, PyVal.boolean true)]
      = jsonKV ("source_type".toList, PyVal.str "repository".toList)
          ++ (',' :: ' ' :: (jsonKV ("text".toList, PyVal.str (List.replicate n 'a'))
          ++ (',' :: ' ' :: (jsonKV ("truncated".toList, PyVal.boolean true) ++ []))))
      from by
        rw [jsonItems, if_neg (List.cons_ne_nil _ _), jsonItems,
          if_neg (List.cons_ne_nil _ _), jsonItems, if_pos rfl]]
  simp only [List.length_append, List.length_cons, List.length_nil, hkv1, hkv2, hkv3]
  omega

/-- C1 (code-bug evidence): for the oversized repository chunk the packager
fires its truncation branch (`truncated` is set to `true`), yet the serialized
metadata of the packaged record is 40981 bytes, which exceeds the 40 KiB
(40960-byte) budget the code intends to enforce: the 10-byte buffer does not
cover the 31 bytes of JSON overhead of the `text` and `truncated` entries. -/
theorem big_text_truncation_overflows_budget :
    getVal "truncated".toList (prepareOne "u2".toList bigChunk).metadata
        = some (PyVal.boolean true) ∧
      (jsonDumps (prepareOne "u2".toList bigChunk).metadata).length = 40981 ∧
      MAX_METADATA_SIZE < 40981 := by
  rw [prepareOne_metadata_shape, packagedMetadata_bigChunk]
  refine ⟨by rfl, ?_, by decide⟩
  rw [jsonDumps_bigChunk_len]

/-- C8 counterexample: a chunk produced by the web-search stage, with
`source_type` equal to `web_search` and a source URL present, is packaged into
a record whose metadata contains neither a `file_path` nor a `source_url`
entry, because the packager only attaches `source_url` for the `source_type`
string `firecrawl`. -/
theorem web_search_chunk_lacks_source_url :
    webChunkEx.source_type = some "web_search".toList ∧
      webChunkEx.source_url.isSome = true ∧
      hasKey "source_url".toList (prepareOne "u0".toList webChunkEx).metadata = false ∧
      hasKey "file_path".toList (prepareOne "u0".toList webChunkEx).metadata = false := by
  decide

/-- C8 amended: packaged metadata always contains `source_type` and `text`;
it contains `file_path` exactly when the chunk is a repository chunk carrying a
file path, and `source_url` exactly when the chunk's `source_type` is the
string `firecrawl` and it carries a source URL — chunks typed `web_search` or
`web_search_mock` receive neither entry. -/
theorem prepareOne_metadata_keys (uuid : List Char) (c : Chunk) :
    hasKey "source_type".toList (prepareOne uuid c).metadata = true ∧
      hasKey "text".toList (prepareOne uuid c).metadata = true ∧
      (hasKey "file_path".toList (prepareOne uuid c).metadata = true
        ↔ c.source_type = some "repository".toList ∧ c.file_path.isSome) ∧
      (hasKey "source_url".toList (prepareOne uuid c).metadata = true
        ↔ c.source_type = some "firecrawl".toList ∧ c.source_url.isSome) := by
  rw [prepareOne_metadata_shape]
  unfold packagedMetadata
  by_cases h1 : c.source_type = some "repository".toList ∧ c.file_path.isSome
  · simp only [baseMetadata, if_pos h1]
    split
    · exact ⟨rfl, rfl, ⟨fun _ => h1, fun _ => rfl⟩,
        ⟨fun hh => Bool.noConfusion hh, fun hh => absurd h1.1 (by rw [hh.1]; decide)⟩⟩
    · exact ⟨rfl, rfl, ⟨fun _ => h1, fun _ => rfl⟩,
        ⟨fun hh => Bool.noConfusion hh, fun hh => absurd h1.1 (by rw [hh.1]; decide)⟩⟩
  · by_cases h2 : c.source_type = some "firecrawl".toList ∧ c.source_url.isSome
    · simp only [baseMetadata, if_neg h1, if_pos h2]
      split
      · exact ⟨rfl, rfl, ⟨fun hh => Bool.noConfusion hh, fun hh => absurd hh h1⟩,
          ⟨fun _ => h2, fun _ => rfl⟩⟩
      · exact ⟨rfl, rfl, ⟨fun hh => Bool.noConfusion hh, fun hh => absurd hh h1⟩,
          ⟨fun _ => h2, fun _ => rfl⟩⟩
    · simp only [baseMetadata, if_neg h1, if_neg h2]
      split
      · exact ⟨rfl, rfl, ⟨fun hh => Bool.noConfusion hh, fun hh => absurd hh h1⟩,
          ⟨fun hh => Bool.noConfusion hh, fun hh => absurd hh h2⟩⟩
      · exact ⟨rfl, rfl, ⟨fun hh => Bool.noConfusion hh, fun hh => absurd hh h1⟩,
          ⟨fun hh => Bool.noConfusion hh, fun hh => absurd hh h2⟩⟩

/-- Witness for the amended C8 theorem at a concrete repository chunk. -/
theorem prepareOne_metadata_keys_witness :
    hasKey "source_type".toList (prepareOne "u1".toList repoChunkEx).metadata = true ∧
      hasKey "file_path".toList (prepareOne "u1".toList repoChunkEx).metadata = true :=
  ⟨(prepareOne_metadata_keys "u1".toList repoChunkEx).1,
    (prepareOne_metadata_keys "u1".toList repoChunkEx).2.2.1.mpr (by decide)⟩

/-- C10: the Vector Packager returns exactly one record per input chunk in
input order, each record carrying the input embedding element-for-element
unchanged; a chunk with no embedding entry yields the empty values sequence,
because the missing dict key defaults to the empty list. -/
theorem prepare_vectors_one_record_per_chunk (uuids : ℕ → List Char) (chunks : List Chunk) :
    (prepare_vectors_for_upsert uuids chunks).map VectorRec.values
        = chunks.map (fun c => c.embedding.getD []) ∧
      (prepare_vectors_for_upsert uuids chunks).length = chunks.length := by
  refine ⟨prepareVectors_values uuids 0 chunks, ?_⟩
  have h := congrArg List.length (prepareVectors_values uuids 0 chunks)
  simpa [prepare_vectors_for_upsert] using h


/-- Helper: the ok-result of `embed_chunks` under an honest embedding function. -/
theorem embed_chunks_ok (f : List Char → List ℚ) (dimension : ℕ) (chunks : List Chunk)
    (hall : ∀ c ∈ chunks, c.text ≠ [] → (f c.text).length = dimension) :
    embed_chunks f dimension chunks
      = Except.ok ((chunks.filter fun c => !c.text.isEmpty).map (withEmbedding f)) := by
  induction chunks with
  | nil => rfl
  | cons c cs ih =>
    have hcs : ∀ cc ∈ cs, cc.text ≠ [] → (f cc.text).length = dimension :=
      fun cc hm => hall cc (List.mem_cons_of_mem _ hm)
    rw [embed_chunks]
    by_cases hc : c.text = []
    · rw [if_pos hc, ih hcs, List.filter_cons]
      have hemp : (!c.text.isEmpty) = false := by
        rw [hc]; rfl
      rw [hemp]
      simp
    · have hd : (f c.text).length = dimension := hall c (List.mem_cons_self _ _) hc
      rw [if_neg hc, if_neg (by omega), ih hcs, List.filter_cons]
      have hemp : (!c.text.isEmpty) = true := by
        cases ht : c.text with
        | nil => exact absurd ht hc
        | cons x xs => rfl
      rw [hemp]
      simp [withEmbedding]

/-- Helper: an error of `embed_chunks` is always a dimension mismatch caused by
a non-empty chunk whose embedding has the wrong length. -/
theorem embed_chunks_error (f : List Char → List ℚ) (dimension : ℕ) (chunks : List Chunk)
    (err : EmbeddingError) (h : embed_chunks f dimension chunks = Except.error err) :
    ∃ c ∈ chunks, c.text ≠ [] ∧ (f c.text).length ≠ dimension ∧
      err = EmbeddingError.dimensionMismatch dimension (f c.text).length := by
  induction chunks with
  | nil => exact absurd h (by rw [embed_chunks]; exact fun hh => Except.noConfusion hh)
  | cons c cs ih =>
    rw [embed_chunks] at h
    by_cases hc : c.text = []
    · rw [if_pos hc] at h
      obtain ⟨cc, hm, hrest⟩ := ih h
      exact ⟨cc, List.mem_cons_of_mem _ hm, hrest⟩
    · rw [if_neg hc] at h
      by_cases hd : (f c.text).length = dimension
      · rw [if_neg (by omega)] at h
        cases hrec : embed_chunks f dimension cs with
        | error e =>
          rw [hrec] at h
          have he : e = err := by simpa using h
          subst he
          obtain ⟨cc, hm, hrest⟩ := ih hrec
          exact ⟨cc, List.mem_cons_of_mem _ hm, hrest⟩
        | ok rest =>
          rw [hrec] at h
          simp at h
      · rw [if_pos (by omega)] at h
        exact ⟨c, List.mem_cons_self _ _, hc, hd, (Except.error.inj h).symm⟩

/-- C2: batch embedding with a pure embedding function either returns exactly
one embedded chunk per non-empty-text input chunk (the chunk copy with its
embedding of the declared length attached) or fails with a dimension-mismatch
error caused by some non-empty chunk whose embedding has the wrong length;
empty-text chunks are skipped and never cause a failure. -/
theorem embed_chunks_spec (f : List Char → List ℚ) (dimension : ℕ) (chunks : List Chunk) :
    ((∀ c ∈ chunks, c.text ≠ [] → (f c.text).length = dimension) →
      embed_chunks f dimension chunks
        = Except.ok ((chunks.filter fun c => !c.text.isEmpty).map (withEmbedding f))) ∧
    (∀ err, embed_chunks f dimension chunks = Except.error err →
      ∃ c ∈ chunks, c.text ≠ [] ∧ (f c.text).length ≠ dimension ∧
        err = EmbeddingError.dimensionMismatch dimension (f c.text).length) :=
  ⟨embed_chunks_ok f dimension chunks, embed_chunks_error f dimension chunks⟩

/-- Witness for the C2 theorem: a two-chunk batch under an honest
two-dimensional embedding function embeds the non-empty chunk and skips the
empty one. -/
theorem embed_chunks_spec_witness :
    embed_chunks f0 2 [chunkA, chunkB] = Except.ok [withEmbedding f0 chunkA] :=
  (embed_chunks_spec f0 2 [chunkA, chunkB]).1 (by decide)


/-- Helper: the contiguous batches reassemble exactly the input sequence,
stated with an explicit length bound to drive the induction. -/
theorem upsertBatches_flatten_aux (bs1 : ℕ) :
    ∀ (n : ℕ) (vs : List VectorRec), vs.length ≤ n → (upsertBatches bs1 vs).flatten = vs := by
  intro n
  induction n with
  | zero =>
    intro vs h
    have hvs : vs = [] := List.eq_nil_of_length_eq_zero (by omega)
    subst hvs
    rw [upsertBatches]
    rfl
  | succ n ih =>
    intro vs h
    cases vs with
    | nil => rw [upsertBatches]; rfl
    | cons v vs1 =>
      rw [upsertBatches, List.flatten_cons,
        ih ((v :: vs1).drop (bs1 + 1)) (by simp [List.length_drop] at h ⊢; omega),
        List.take_append_drop]

/-- Helper: the contiguous batches reassemble exactly the input sequence. -/
theorem upsertBatches_flatten (bs1 : ℕ) (vs : List VectorRec) :
    (upsertBatches bs1 vs).flatten = vs :=
  upsertBatches_flatten_aux bs1 vs.length vs le_rfl

/-- Helper: batch sizes with an explicit length bound to drive the induction. -/
theorem upsertBatches_sizes_aux (bs1 : ℕ) :
    ∀ (n : ℕ) (vs : List VectorRec), vs.length ≤ n →
      (upsertBatches bs1 vs).map List.length
        = List.replicate (vs.length / (bs1 + 1)) (bs1 + 1)
          ++ (if vs.length % (bs1 + 1) = 0 then []
              else [vs.length % (bs1 + 1)]) := by
  intro n
  induction n with
  | zero =>
    intro vs h
    have hvs : vs = [] := List.eq_nil_of_length_eq_zero (by omega)
    subst hvs
    rw [upsertBatches]
    simp
  | succ n ih =>
    intro vs h
    cases vs with
    | nil =>
      rw [upsertBatches]
      simp
    | cons v vs1 =>
      rw [upsertBatches, List.map_cons,
        ih ((v :: vs1).drop (bs1 + 1)) (by simp [List.length_drop] at h ⊢; omega)]
      rw [List.length_take, List.length_drop]
      set len := (v :: vs1).length with hlen
      have hpos : 0 < len := by simp [hlen]
      by_cases hle : len ≤ bs1 + 1
      · have h1 : min (bs1 + 1) len = len := by omega
        have h2 : len - (bs1 + 1) = 0 := by omega
        rw [h1, h2]
        by_cases heq : len = bs1 + 1
        · rw [heq]
          simp
        · have hlt : len < bs1 + 1 := by omega
          rw [Nat.div_eq_of_lt hlt, Nat.mod_eq_of_lt hlt, Nat.zero_div, Nat.zero_mod]
          rw [if_pos rfl, if_neg (by omega)]
          simp
      · have hgt : bs1 + 1 ≤ len := by omega
        have h1 : min (bs1 + 1) len = bs1 + 1 := by omega
        rw [h1]
        have hdiv : (len - (bs1 + 1)) / (bs1 + 1) = len / (bs1 + 1) - 1 := by
          rcases Nat.exists_eq_add_of_le hgt with ⟨k, hk⟩
          rw [hk, Nat.add_sub_cancel_left, Nat.add_div_left _ (by omega), Nat.add_sub_cancel]
        have hmod : (len - (bs1 + 1)) % (bs1 + 1) = len % (bs1 + 1) := by
          conv_rhs => rw [Nat.mod_eq_sub_mod hgt]
        rw [hdiv, hmod]
        have hone : 1 ≤ len / (bs1 + 1) := (Nat.one_le_div_iff (by omega)).mpr hgt
        have hrep : List.replicate (len / (bs1 + 1)) (bs1 + 1)
            = (bs1 + 1) :: List.replicate (len / (bs1 + 1) - 1) (bs1 + 1) := by
          have hq : len / (bs1 + 1) = (len / (bs1 + 1) - 1) + 1 := by omega
          rw [hq, List.replicate_succ, Nat.add_sub_cancel]
        rw [hrep]
        rfl

/-- Helper: the batch sizes are the batch size repeated, with the remainder
last when the length does not divide evenly. -/
theorem upsertBatches_sizes (bs1 : ℕ) (vs : List VectorRec) :
    (upsertBatches bs1 vs).map List.length
      = List.replicate (vs.length / (bs1 + 1)) (bs1 + 1)
        ++ (if vs.length % (bs1 + 1) = 0 then []
            else [vs.length % (bs1 + 1)]) :=
  upsertBatches_sizes_aux bs1 vs.length vs le_rfl

/-- Helper: when every issued batch is acknowledged with its own length, the
batching loop accumulates exactly the number of records it was given. -/
theorem upsertLoop_full (ack : List VectorRec → Except (List Char) UpsertAck) (bs1 : ℕ) :
    ∀ (n : ℕ) (vs : List VectorRec), vs.length ≤ n →
      ∀ total : ℕ,
        (∀ batch ∈ upsertBatches bs1 vs, ∃ a, ack batch = Except.ok a ∧
          ackCount a batch.length = batch.length) →
        upsertLoop ack bs1 vs total = Except.ok (total + vs.length) := by
  intro n
  induction n with
  | zero =>
    intro vs h total hack
    have hvs : vs = [] := List.eq_nil_of_length_eq_zero (by omega)
    subst hvs
    rw [upsertLoop]
    rfl
  | succ n ih =>
    intro vs h total hack
    cases vs with
    | nil => rw [upsertLoop]; rfl
    | cons v vs1 =>
      obtain ⟨a, ha, hc⟩ := hack ((v :: vs1).take (bs1 + 1))
        (by rw [upsertBatches]; exact List.mem_cons_self _ _)
      rw [upsertLoop, ha]
      simp only []
      have hackrest : ∀ batch ∈ upsertBatches bs1 ((v :: vs1).drop (bs1 + 1)), ∃ a,
          ack batch = Except.ok a ∧ ackCount a batch.length = batch.length := by
        intro batch hb
        exact hack batch (by rw [upsertBatches]; exact List.mem_cons_of_mem _ hb)
      rw [ih ((v :: vs1).drop (bs1 + 1)) (by simp [List.length_drop] at h ⊢; omega) _ hackrest]
      rw [hc, List.length_take, List.length_drop]
      congr 1
      simp only [List.length_cons]
      omega

/-- C5: for batch size `b > 0`, the Batched Upsert Engine issues its index
calls on the contiguous slices whose sizes are `b` repeated with the remainder
`n mod b` last, making `ceil(n / b)` calls in total, and when every call
acknowledges its own batch length the reported total equals the number of
records. -/
theorem upsert_vectors_spec (ack : List VectorRec → Except (List Char) UpsertAck)
    (vectors : List VectorRec) (b : ℕ) (hb : 0 < b)
    (hack : ∀ batch ∈ upsertBatches (b - 1) vectors, ∃ a, ack batch = Except.ok a ∧
      ackCount a batch.length = batch.length) :
    (upsertBatches (b - 1) vectors).map List.length
        = List.replicate (vectors.length / b) b
          ++ (if vectors.length % b = 0 then [] else [vectors.length % b]) ∧
      (upsertBatches (b - 1) vectors).length = (vectors.length + b - 1) / b ∧
      (upsertBatches (b - 1) vectors).flatten = vectors ∧
      upsert_vectors ack vectors b = Except.ok vectors.length := by
  obtain ⟨b1, rfl⟩ : ∃ b1, b = b1 + 1 := ⟨b - 1, by omega⟩
  simp only [Nat.add_sub_cancel] at hack ⊢
  refine ⟨upsertBatches_sizes b1 vectors, ?_, upsertBatches_flatten b1 vectors, ?_⟩
  · have hmap := congrArg List.length (upsertBatches_sizes b1 vectors)
    rw [List.length_map] at hmap
    rw [hmap, List.length_append, List.length_replicate]
    obtain ⟨q, r, hr, he⟩ : ∃ q r, r < b1 + 1 ∧ vectors.length = (b1 + 1) * q + r :=
      ⟨vectors.length / (b1 + 1), vectors.length % (b1 + 1),
        Nat.mod_lt _ (by omega), (Nat.div_add_mod vectors.length (b1 + 1)).symm⟩
    rw [he, Nat.mul_add_div (by omega), Nat.mul_add_mod]
    by_cases hzero : r = 0
    · subst hzero
      rw [Nat.div_eq_of_lt hr, Nat.mod_eq_of_lt hr, if_pos rfl]
      have hrw : (b1 + 1) * q + 0 + (b1 + 1) - 1 = (b1 + 1) * q + b1 := by omega
      rw [hrw, Nat.mul_add_div (by omega), Nat.div_eq_of_lt (by omega)]
      simp
    · rw [Nat.mod_eq_of_lt hr, if_neg hzero]
      have hrw : (b1 + 1) * q + r + (b1 + 1) - 1 = (b1 + 1) * (q + 1) + (r - 1) := by ring_nf; omega
      rw [hrw, Nat.mul_add_div (by omega), Nat.div_eq_of_lt (show r - 1 < b1 + 1 by omega)]
      simp
      exact Nat.div_eq_of_lt hr
  · rw [upsert_vectors, upsertLoop_full ack b1 vectors.length vectors le_rfl 0 hack, Nat.zero_add]

/-- Witness for the C5 theorem: 250 records with batch size 100 are written in
3 calls of sizes 100, 100 and 50, and the reported total is 250. -/
theorem upsert_vectors_spec_witness :
    upsert_vectors ackLen (List.replicate 250 dummyRec) 100 = Except.ok 250 ∧
      (upsertBatches 99 (List.replicate 250 dummyRec)).map List.length = [100, 100, 50] := by
  have h := upsert_vectors_spec ackLen (List.replicate 250 dummyRec) 100 (by norm_num)
    (fun batch hb => ⟨UpsertAck.grpc batch.length, rfl, rfl⟩)
  refine ⟨?_, ?_⟩
  · have h4 := h.2.2.2
    rwa [List.length_replicate] at h4
  · have h1 := h.1
    rw [List.length_replicate] at h1
    rw [h1]
    decide


/-- Helper: the fallback extraction always yields at least the summary chunk. -/
theorem fallbackChunks_ne_nil (content : List Char) : fallbackChunks content ≠ [] := by
  simp only [fallbackChunks]
  split <;> split <;> simp

/-- C6: the Chunk Extractor fails with the not-found error exactly when the
corpus dump cannot be opened; an unexpected error during parsing is not
propagated but becomes a single synthetic chunk with `source_type` equal to
`error`; and every returned chunk sequence is non-empty. -/
theorem parse_repomix_output_spec (read : Option (List Char)) (xml : XmlOutcome)
    (unexpected : Option (List Char)) :
    (parse_repomix_output read xml unexpected = Except.error RepomixError.fileNotFound
        ↔ read = none) ∧
      (∀ content msg, read = some content → unexpected = some msg →
        parse_repomix_output read xml unexpected = Except.ok [errorChunk msg] ∧
          (errorChunk msg).source_type = some "error".toList ∧
          [errorChunk msg].length = 1) ∧
      (∀ l, parse_repomix_output read xml unexpected = Except.ok l → l ≠ []) := by
  refine ⟨⟨?_, ?_⟩, ?_, ?_⟩
  · intro h
    cases read with
    | none => rfl
    | some content =>
      rw [parse_repomix_output.eq_def] at h
      cases unexpected with
      | some msg => exact absurd h (fun hh => Except.noConfusion hh)
      | none =>
        cases xml with
        | parseFailure => exact absurd h (fun hh => Except.noConfusion hh)
        | parsed files =>
          revert h
          simp only []
          split
          · exact fun hh => Except.noConfusion hh
          · exact fun hh => Except.noConfusion hh
  · intro h
    subst h
    rfl
  · intro content msg hr hu
    subst hr
    subst hu
    exact ⟨rfl, rfl, rfl⟩
  · intro l h
    cases read with
    | none => exact absurd h (fun hh => Except.noConfusion hh)
    | some content =>
      rw [parse_repomix_output.eq_def] at h
      cases unexpected with
      | some msg =>
        rw [Except.ok.injEq] at h
        subst h
        exact List.cons_ne_nil _ _
      | none =>
        cases xml with
        | parseFailure =>
          rw [Except.ok.injEq] at h
          subst h
          exact fallbackChunks_ne_nil content
        | parsed files =>
          revert h
          simp only []
          split
          · intro h
            rw [Except.ok.injEq] at h
            subst h
            assumption
          · intro h
            rw [Except.ok.injEq] at h
            subst h
            exact fallbackChunks_ne_nil content

/-- Witness for the C6 theorem: with a readable file and an unexpected parse
error, the extractor returns the single synthetic error chunk. -/
theorem parse_repomix_output_spec_witness :
    parse_repomix_output (some "x".toList) XmlOutcome.parseFailure (some "boom".toList)
        = Except.ok [errorChunk "boom".toList] ∧
      (errorChunk "boom".toList).source_type = some "error".toList ∧
      [errorChunk "boom".toList].length = 1 :=
  (parse_repomix_output_spec (some "x".toList) XmlOutcome.parseFailure
    (some "boom".toList)).2.1 "x".toList "boom".toList rfl rfl


/-- C7: for a non-empty candidate identifier set, the validator probes exactly
`min(5, n)` sampled identifiers (each sampled identifier contributes exactly
one result), declares success exactly when the number of confirmed identifiers
reaches 3/5 of the number sampled, and a query exception for a sampled
identifier is caught and recorded as that identifier not found instead of
aborting the pass. -/
theorem validate_sampled_spec (filePaths samplePaths : List (List Char))
    (q1 q2 : List Char → Except (List Char) (List QueryMatch))
    (hne : filePaths ≠ [])
    (hs : samplePaths.length = sample_size filePaths.length) :
    (validateSampledPaths samplePaths q1 q2).total_count = sample_size filePaths.length ∧
      (validateSampledPaths samplePaths q1 q2).results.length = samplePaths.length ∧
      ((validateSampledPaths samplePaths q1 q2).success = true ↔
        ((validateSampledPaths samplePaths q1 q2).found_count : ℚ)
          ≥ 3 / 5 * (sample_size filePaths.length : ℚ)) ∧
      (∀ fp e, q1 fp = Except.error e →
        validatePath q1 q2 fp
          = { file_path := fp, found := false, match_field := none, match_value := none,
              score := none, error := some e }) := by
  have hpos : 0 < sample_size filePaths.length := by
    have : filePaths.length ≠ 0 := fun hh => hne (List.eq_nil_of_length_eq_zero hh)
    unfold sample_size
    omega
  have hlen : (samplePaths.map (validatePath q1 q2)).length = sample_size filePaths.length := by
    rw [List.length_map, hs]
  refine ⟨?_, ?_, ?_, ?_⟩
  · simp only [validateSampledPaths]
    rw [List.length_map, hs]
  · simp only [validateSampledPaths]
    rw [List.length_map]
  · simp only [validateSampledPaths]
    rw [hlen, if_neg (by omega)]
    rw [decide_eq_true_eq]
    have hq : (0 : ℚ) < (sample_size filePaths.length : ℚ) := by
      exact_mod_cast hpos
    constructor
    · intro hge
      rw [ge_iff_le, le_div_iff₀ hq] at hge
      exact hge
    · intro hge
      rw [ge_iff_le, le_div_iff₀ hq]
      exact hge
  · intro fp e h
    simp [validatePath, h]

/-- Witness for the C7 theorem: two candidate identifiers, both sampled, with
a first probe that always raises: the pass still probes both identifiers and
records each as not found with its error, without aborting. -/
theorem validate_sampled_spec_witness :
    (validateSampledPaths ["a.py".toList, "b.py".toList] q1err q2nil).total_count = 2 ∧
      validatePath q1err q2nil "a.py".toList
        = { file_path := "a.py".toList, found := false, match_field := none,
            match_value := none, score := none, error := some "boom".toList } := by
  have h := validate_sampled_spec ["a.py".toList, "b.py".toList]
    ["a.py".toList, "b.py".toList] q1err q2nil (by decide) (by decide)
  exact ⟨h.1.trans (by decide), h.2.2.2 "a.py".toList "boom".toList rfl⟩


/-- Helper: a string of whitespace characters strips to the empty string. -/
theorem pyStrip_eq_nil_of_all (s : List Char) (hall : ∀ c ∈ s, isPySpace c = true) :
    pyStrip s = [] := by
  unfold pyStrip
  have h1 : s.dropWhile isPySpace = [] :=
    List.dropWhile_eq_nil_iff.mpr fun x hx => hall x hx
  rw [h1]
  rfl

/-- Helper: a string with a non-empty strip contains a non-whitespace character. -/
theorem exists_nonspace_of_strip (s : List Char) (h : pyStrip s ≠ []) :
    ∃ c ∈ s, isPySpace c = false := by
  by_contra hall
  push_neg at hall
  refine h (pyStrip_eq_nil_of_all s fun c hc => ?_)
  have hne := hall c hc
  cases hb : isPySpace c
  · exact absurd hb hne
  · rfl

/-- Helper: code of a character built from a valid lower-case letter code. -/
theorem toNat_ofNat_lower (n : ℕ) (h1 : 97 ≤ n) (h2 : n ≤ 122) : (Char.ofNat n).toNat = n := by
  unfold Char.ofNat Char.toNat
  rw [dif_pos]
  · simp [Char.ofNatAux, UInt32.toNat]
  · left
    omega

/-- Helper: ASCII lower-casing does not change whether a character is
whitespace. -/
theorem isPySpace_pyLowerChar (c : Char) : isPySpace (pyLowerChar c) = isPySpace c := by
  unfold pyLowerChar
  split
  · rename_i h
    have ht : (Char.ofNat (c.toNat + 32)).toNat = c.toNat + 32 :=
      toNat_ofNat_lower _ (by omega) (by omega)
    have hl : isPySpace (Char.ofNat (c.toNat + 32)) = false := by
      unfold isPySpace
      rw [ht]
      simp
      omega
    have hr : isPySpace c = false := by
      unfold isPySpace
      simp
      omega
    rw [hl, hr]
  · rfl

/-- Helper: a leading whitespace character does not change the split words. -/
theorem pySplitWs_cons_space (d : Char) (ds : List Char) (hd : isPySpace d = true) :
    pySplitWs (d :: ds) = pySplitWs ds := by
  unfold pySplitWs splitRuns
  rw [List.foldr_cons]
  simp [hd]

/-- Helper: a string containing a non-whitespace character splits into at
least one word. -/
theorem pySplitWs_ne_nil (s : List Char) (c : Char) (hc : c ∈ s) (hw : isPySpace c = false) :
    pySplitWs s ≠ [] := by
  induction s with
  | nil => cases hc
  | cons d ds ih =>
    by_cases hd : isPySpace d = true
    · rw [pySplitWs_cons_space d ds hd]
      rcases List.mem_cons.mp hc with h | h
      · subst h
        exact absurd hd (by simp [hw])
      · exact ih h
    · have hd2 : isPySpace d = false := by
        cases hb : isPySpace d
        · rfl
        · exact absurd hb hd
      unfold pySplitWs splitRuns
      rw [List.foldr_cons]
      cases hsr : splitRuns ds with
      | nil =>
        unfold splitRuns at hsr
        rw [hsr]
        simp [hd2]
      | cons w r =>
        unfold splitRuns at hsr
        rw [hsr]
        simp [hd2]

/-- C9: the hashing-based sparse embedding never raises (it is a total
function), returns the 384-dimensional all-zero vector on empty or
whitespace-only text, and on any other text returns a vector of the same
dimension whose squared components sum to one, that is, an L2-normalized
vector. -/
theorem pinecone_sparse_embed_spec (h : List Char → ℤ) (text : List Char) :
    (pinecone_sparse_embed h text).length = 384 ∧
      (pyStrip text = [] → pinecone_sparse_embed h text = List.replicate 384 0) ∧
      (pyStrip text ≠ [] → sumSq (pinecone_sparse_embed h text) = 1) := by
  by_cases hz : text = [] ∨ pyStrip text = []
  · rw [pinecone_sparse_embed, if_pos hz]
    refine ⟨List.length_replicate _ _, fun _ => rfl, fun hne => ?_⟩
    rcases hz with hz | hz
    · exact absurd (by rw [hz]; rfl) hne
    · exact absurd hz hne
  · simp only [pinecone_sparse_embed, if_neg hz]
    push_neg at hz
    obtain ⟨htne, hstrip⟩ := hz
    set words := pySplitWs (text.map pyLowerChar) with hwords
    set idxs := words.map (fun w => ((h w) % 384).toNat) with hidxs
    set v : Fin 384 → ℝ := fun i => if i.val ∈ idxs then 1 else 0 with hv
    have hvsq : ∀ i : Fin 384, v i ^ 2 = v i := by
      intro i
      rw [hv]
      by_cases hm : i.val ∈ idxs <;> simp [hm]
    have hS : ∑ i, v i ^ 2 = ∑ i, v i := Finset.sum_congr rfl fun i _ => hvsq i
    obtain ⟨c, hcs, hcw⟩ := exists_nonspace_of_strip text hstrip
    have hwne : words ≠ [] := by
      rw [hwords]
      refine pySplitWs_ne_nil _ (pyLowerChar c) (List.mem_map_of_mem _ hcs) ?_
      rw [isPySpace_pyLowerChar]
      exact hcw
    obtain ⟨w0, hw0⟩ : ∃ w0, w0 ∈ words := List.exists_mem_of_ne_nil words hwne
    have hjlt : ((h w0) % 384).toNat < 384 := by
      have h1 : (0 : ℤ) ≤ h w0 % 384 := Int.emod_nonneg _ (by norm_num)
      have h2 : h w0 % 384 < 384 := Int.emod_lt_of_pos _ (by norm_num)
      omega
    have hjmem : ((h w0) % 384).toNat ∈ idxs := by
      rw [hidxs]
      exact List.mem_map_of_mem _ hw0
    have hvj : v ⟨((h w0) % 384).toNat, hjlt⟩ = 1 := by
      rw [hv]
      simp [hjmem]
    have hvnn : ∀ i : Fin 384, 0 ≤ v i := by
      intro i
      rw [hv]
      by_cases hm : i.val ∈ idxs <;> simp [hm]
    have hSpos : 0 < ∑ i, v i ^ 2 := by
      rw [hS]
      have hle : v ⟨((h w0) % 384).toNat, hjlt⟩ ≤ ∑ i, v i :=
        Finset.single_le_sum (fun i _ => hvnn i) (Finset.mem_univ _)
      rw [hvj] at hle
      linarith
    have hnorm : 0 < Real.sqrt (∑ i, v i ^ 2) := Real.sqrt_pos.mpr hSpos
    rw [if_pos hnorm]
    refine ⟨by rw [List.length_ofFn], fun hcontra => absurd hcontra hstrip, fun _ => ?_⟩
    unfold sumSq
    rw [List.map_ofFn, List.sum_ofFn]
    have hstep : ∀ i : Fin 384,
        (v i / Real.sqrt (∑ i, v i ^ 2)) ^ 2 = v i ^ 2 / (∑ i, v i ^ 2) := by
      intro i
      rw [div_pow, Real.sq_sqrt (le_of_lt hSpos)]
    calc ∑ i : Fin 384, ((fun x => x ^ 2) ∘ fun i => v i / Real.sqrt (∑ i, v i ^ 2)) i
        = ∑ i : Fin 384, v i ^ 2 / (∑ i, v i ^ 2) := Finset.sum_congr rfl fun i _ => hstep i
      _ = (∑ i : Fin 384, v i ^ 2) / (∑ i, v i ^ 2) := by rw [← Finset.sum_div]
      _ = 1 := div_self (ne_of_gt hSpos)

/-- Witness for the C9 theorem, with the hash function that sends every word
to bucket zero: whitespace-only text embeds to the zero vector, and the
one-letter text embeds to an L2-normalized vector. -/
theorem pinecone_sparse_embed_spec_witness :
    pinecone_sparse_embed (fun _ => 0) " ".toList = List.replicate 384 0 ∧
      sumSq (pinecone_sparse_embed (fun _ => 0) "a".toList) = 1 :=
  ⟨(pinecone_sparse_embed_spec (fun _ => 0) " ".toList).2.1 (by decide),
    (pinecone_sparse_embed_spec (fun _ => 0) "a".toList).2.2 (by decide)⟩


/-- Helper: on the non-terminating input the loop makes no progress — the
window start returns to zero on every iteration, so no fuel suffices. -/
theorem chunkLoop_stuck (fuel : ℕ) :
    ∀ acc, chunkLoop "aaaaab".toList 5 5 fuel 0 acc = none := by
  induction fuel with
  | zero => intro acc; rfl
  | succ fuel ih =>
    intro acc
    rw [chunkLoop]
    rw [if_pos (by decide)]
    have he : chunkEnd "aaaaab".toList 5 0 = 5 := by decide
    have hch : pyStrip (pySlice "aaaaab".toList 0 (chunkEnd "aaaaab".toList 5 0))
        = "aaaaa".toList := by decide
    rw [he] at hch
    simp only [he, hch]
    rw [if_pos (by decide)]
    have h50 : (5 : ℤ) - (5 : ℕ) = 0 := by norm_num
    rw [h50]
    exact ih (acc ++ ["aaaaa".toList])

/-- C3 (code-bug evidence): the claim says the non-advancing window case is
guarded, but it is not: on the six-character input `aaaaab` with
`max_chunk_size = 5` and `overlap = 5` the window start stays at zero forever,
so the loop never terminates — the fuel-instrumented model returns `none` for
every fuel bound. -/
theorem chunk_firecrawl_content_nonterminating (fuel : ℕ) :
    chunk_firecrawl_content fuel "aaaaab".toList 5 5 = none := by
  rw [chunk_firecrawl_content, if_neg (by decide)]
  exact chunkLoop_stuck fuel []


/-- Helper: normalized Python indices never exceed the string length. -/
theorem pyNorm_le (L : ℕ) (x : ℤ) : pyNorm L x ≤ L := by
  unfold pyNorm
  split
  · omega
  · exact min_le_right _ _

/-- Helper: a found last-space index lies inside the list. -/
theorem lastSpaceIdx_lt (l : List Char) (k : ℕ) (h : lastSpaceIdx l = some k) : k < l.length := by
  induction l generalizing k with
  | nil => exact absurd h (by rw [lastSpaceIdx]; exact fun hh => Option.noConfusion hh)
  | cons c cs ih =>
    rw [lastSpaceIdx] at h
    cases hrec : lastSpaceIdx cs with
    | some k0 =>
      rw [hrec] at h
      have hk : k = k0 + 1 := (Option.some.inj h).symm
      subst hk
      have := ih k0 hrec
      simp only [List.length_cons]
      omega
    | none =>
      rw [hrec] at h
      by_cases hc : c = ' '
      · rw [if_pos hc] at h
        have hk : k = 0 := (Option.some.inj h).symm
        subst hk
        simp
      · rw [if_neg hc] at h
        exact absurd h (fun hh => Option.noConfusion hh)

/-- Helper: a non-negative result of `rfind` is an absolute index inside the
normalized search range. -/
theorem pyRfindSpace_bounds (s : List Char) (i j k : ℤ)
    (h : pyRfindSpace s i j = k) (hk : k ≠ -1) :
    (pyNorm s.length i : ℤ) ≤ k ∧ k < (pyNorm s.length j : ℤ) := by
  rw [pyRfindSpace] at h
  cases hls : lastSpaceIdx ((s.drop (pyNorm s.length i)).take
      (pyNorm s.length j - pyNorm s.length i)) with
  | none =>
    rw [hls] at h
    exact absurd h.symm hk
  | some m =>
    rw [hls] at h
    have hm := lastSpaceIdx_lt _ m hls
    rw [List.length_take] at hm
    have hk2 : k = (pyNorm s.length i : ℤ) + m := h.symm
    subst hk2
    constructor
    · omega
    · have hlt : m < pyNorm s.length j - pyNorm s.length i := lt_of_lt_of_le hm (min_le_left _ _)
      omega

/-- Helper: normalizing both edges of a window of width `m` moves them at most
`m` apart. -/
theorem pyNorm_sub_le (L : ℕ) (start : ℤ) (m : ℕ) :
    pyNorm L (start + m) - pyNorm L start ≤ m := by
  unfold pyNorm
  split <;> split <;> omega

/-- Helper: the normalized window produced by `chunkEnd` is never wider than
the requested chunk size. -/
theorem chunkEnd_norm_le (content : List Char) (maxSize : ℕ) (start : ℤ) :
    pyNorm content.length (chunkEnd content maxSize start)
      - pyNorm content.length start ≤ maxSize := by
  rw [chunkEnd]
  split
  · rename_i hlt
    split
    · rename_i hne
      obtain ⟨h1, h2⟩ := pyRfindSpace_bounds content start (start + (maxSize : ℤ)) _ rfl hne
      have h3 := pyNorm_sub_le content.length start maxSize
      have h4 : pyNorm content.length (pyRfindSpace content start (start + (maxSize : ℤ)))
          = (pyRfindSpace content start (start + (maxSize : ℤ))).toNat := by
        unfold pyNorm
        rw [if_neg (by omega)]
        have h5 := pyNorm_le content.length (start + (maxSize : ℤ))
        omega
      rw [h4]
      have h5 := pyNorm_le content.length (start + (maxSize : ℤ))
      omega
    · exact pyNorm_sub_le content.length start maxSize
  · rename_i hge
    have h1 : pyNorm content.length (content.length : ℤ) = content.length := by
      unfold pyNorm
      rw [if_neg (by omega)]
      omega
    rw [h1]
    unfold pyNorm
    split <;> omega

/-- Helper: stripping yields a contiguous piece of the original string. -/
theorem pyStrip_decomp (s : List Char) : ∃ pre post, pre ++ pyStrip s ++ post = s := by
  refine ⟨s.takeWhile isPySpace,
    (((s.dropWhile isPySpace).reverse.takeWhile isPySpace)).reverse, ?_⟩
  unfold pyStrip
  set t := s.dropWhile isPySpace with ht
  have h2 : t.reverse.takeWhile isPySpace ++ t.reverse.dropWhile isPySpace = t.reverse :=
    List.takeWhile_append_dropWhile isPySpace t.reverse
  have h3 : t = (t.reverse.dropWhile isPySpace).reverse
      ++ (t.reverse.takeWhile isPySpace).reverse := by
    have h4 := congrArg List.reverse h2
    rw [List.reverse_append, List.reverse_reverse] at h4
    exact h4.symm
  calc s.takeWhile isPySpace ++ (t.reverse.dropWhile isPySpace).reverse
        ++ (t.reverse.takeWhile isPySpace).reverse
      = s.takeWhile isPySpace ++ ((t.reverse.dropWhile isPySpace).reverse
        ++ (t.reverse.takeWhile isPySpace).reverse) := by rw [List.append_assoc]
    _ = s.takeWhile isPySpace ++ t := by rw [← h3]
    _ = s := by rw [ht]; exact List.takeWhile_append_dropWhile isPySpace s

/-- Helper: stripping never lengthens a string. -/
theorem pyStrip_length_le (s : List Char) : (pyStrip s).length ≤ s.length := by
  obtain ⟨pre, post, h⟩ := pyStrip_decomp s
  have := congrArg List.length h
  simp only [List.length_append] at this
  omega

/-- Helper: a Python slice is a contiguous piece of the original string. -/
theorem pySlice_decomp (s : List Char) (i j : ℤ) :
    ∃ pre post, pre ++ pySlice s i j ++ post = s := by
  refine ⟨s.take (pyNorm s.length i),
    (s.drop (pyNorm s.length i)).drop (pyNorm s.length j - pyNorm s.length i), ?_⟩
  rw [pySlice, List.append_assoc, List.take_append_drop, List.take_append_drop]

/-- Helper: the slice taken by one loop iteration fits the chunk size. -/
theorem pySlice_chunkEnd_length_le (content : List Char) (maxSize : ℕ) (start : ℤ) :
    (pySlice content start (chunkEnd content maxSize start)).length ≤ maxSize := by
  rw [pySlice, List.length_take]
  have := chunkEnd_norm_le content maxSize start
  omega


/-- Helper: a non-negative in-range Python index normalizes to itself. -/
theorem pyNorm_toNat (L : ℕ) (x : ℤ) (h0 : 0 ≤ x) (hle : x ≤ (L : ℤ)) :
    pyNorm L x = x.toNat := by
  unfold pyNorm
  rw [if_neg (by omega)]
  exact min_eq_left (by omega)

/-- Helper: from a window start inside the string, the adjusted end stays
between the start and the string end. -/
theorem chunkEnd_bounds (content : List Char) (maxSize : ℕ) (start : ℤ)
    (h0 : 0 ≤ start) (hst : start < (content.length : ℤ)) :
    start ≤ chunkEnd content maxSize start
      ∧ chunkEnd content maxSize start ≤ (content.length : ℤ) := by
  rw [chunkEnd]
  split
  · rename_i hlt
    split
    · rename_i hne
      obtain ⟨h1, h2⟩ := pyRfindSpace_bounds content start (start + (maxSize : ℤ)) _ rfl hne
      have h3 : pyNorm content.length start = start.toNat :=
        pyNorm_toNat _ _ h0 (le_of_lt hst)
      have h4 := pyNorm_le content.length (start + (maxSize : ℤ))
      rw [h3] at h1
      constructor
      · omega
      · omega
    · constructor
      · omega
      · omega
  · constructor
    · omega
    · omega

/-- Helper: dropping all whitespace commutes with dropping a whitespace
prefix. -/
theorem filter_dropWhile_space (s : List Char) :
    (s.dropWhile isPySpace).filter (fun c => !isPySpace c)
      = s.filter (fun c => !isPySpace c) := by
  induction s with
  | nil => rfl
  | cons c cs ih =>
    by_cases hc : isPySpace c = true
    · rw [List.dropWhile_cons, if_pos hc, ih, List.filter_cons]
      rw [hc]
      rfl
    · rw [List.dropWhile_cons, if_neg hc]

/-- Helper: stripping does not change the non-whitespace characters. -/
theorem filter_pyStrip (s : List Char) :
    (pyStrip s).filter (fun c => !isPySpace c) = s.filter (fun c => !isPySpace c) := by
  unfold pyStrip
  rw [List.filter_reverse, filter_dropWhile_space, List.filter_reverse,
    List.reverse_reverse, filter_dropWhile_space]

/-- Helper: the stripped string is a sublist of the original. -/
theorem pyStrip_sublist (s : List Char) : List.Sublist (pyStrip s) s := by
  obtain ⟨pre, post, h⟩ := pyStrip_decomp s
  conv_rhs => rw [← h, List.append_assoc]
  exact ((List.sublist_append_left _ _).trans (List.sublist_append_right pre _))

/-- Helper: inside the string, the suffix from the window start is the window
slice followed by the suffix from the adjusted end. -/
theorem drop_slice_decomp (content : List Char) (start e : ℤ)
    (h0 : 0 ≤ start) (hse : start ≤ e) (heL : e ≤ (content.length : ℤ)) :
    content.drop start.toNat = pySlice content start e ++ content.drop e.toNat := by
  have hs1 : pyNorm content.length start = start.toNat :=
    pyNorm_toNat _ _ h0 (le_trans hse heL)
  have he1 : pyNorm content.length e = e.toNat :=
    pyNorm_toNat _ _ (le_trans h0 hse) heL
  rw [pySlice, hs1, he1]
  conv_lhs => rw [← List.take_append_drop (e.toNat - start.toNat) (content.drop start.toNat)]
  rw [List.drop_drop]
  congr 2
  omega


/-- Helper: every piece accumulated by the chunking loop is at most
`maxSize` long and is a contiguous piece of the input. -/
theorem chunkLoop_pieces (content : List Char) (maxSize overlap : ℕ) :
    ∀ (fuel : ℕ) (start : ℤ) (acc pieces : List (List Char)),
      chunkLoop content maxSize overlap fuel start acc = some pieces →
      (∀ p ∈ acc, p.length ≤ maxSize ∧ ∃ pre post, pre ++ p ++ post = content) →
      ∀ p ∈ pieces, p.length ≤ maxSize ∧ ∃ pre post, pre ++ p ++ post = content := by
  intro fuel
  induction fuel with
  | zero =>
    intro start acc pieces h hacc
    exact absurd h (by rw [chunkLoop]; exact fun hh => Option.noConfusion hh)
  | succ fuel ih =>
    intro start acc pieces h hacc
    rw [chunkLoop] at h
    by_cases hst : start < (content.length : ℤ)
    · rw [if_pos hst] at h
      by_cases hch : pyStrip (pySlice content start (chunkEnd content maxSize start)) ≠ []
      · rw [if_pos hch] at h
        refine ih _ _ _ h ?_
        intro p hp
        rcases List.mem_append.mp hp with hp | hp
        · exact hacc p hp
        · have hp2 : p = pyStrip (pySlice content start (chunkEnd content maxSize start)) := by
            simpa using hp
          constructor
          · rw [hp2]
            exact le_trans (pyStrip_length_le _)
              (pySlice_chunkEnd_length_le content maxSize start)
          · obtain ⟨a, b, hab⟩ :=
              pyStrip_decomp (pySlice content start (chunkEnd content maxSize start))
            obtain ⟨c2, d2, hcd⟩ := pySlice_decomp content start (chunkEnd content maxSize start)
            refine ⟨c2 ++ a, b ++ d2, ?_⟩
            rw [hp2]
            calc (c2 ++ a) ++ pyStrip (pySlice content start (chunkEnd content maxSize start))
                  ++ (b ++ d2)
                = c2 ++ (a ++ pyStrip (pySlice content start (chunkEnd content maxSize start))
                  ++ b) ++ d2 := by simp [List.append_assoc]
              _ = c2 ++ pySlice content start (chunkEnd content maxSize start) ++ d2 := by
                  rw [hab]
              _ = content := hcd
      · rw [if_neg hch] at h
        exact ih _ _ _ h hacc
    · rw [if_neg hst] at h
      obtain rfl : acc = pieces := Option.some.inj h
      exact hacc

/-- Helper: with zero overlap the loop consumes the input left to right — the
concatenated pieces are a sublist of the unread suffix (prefixed by what was
already accumulated) and preserve its non-whitespace characters exactly. -/
theorem chunkLoop_reconstruct (content : List Char) (maxSize : ℕ) :
    ∀ (fuel : ℕ) (start : ℤ) (acc pieces : List (List Char)),
      0 ≤ start →
      chunkLoop content maxSize 0 fuel start acc = some pieces →
      pieces.flatten.filter (fun c => !isPySpace c)
          = acc.flatten.filter (fun c => !isPySpace c)
            ++ (content.drop start.toNat).filter (fun c => !isPySpace c) ∧
        List.Sublist pieces.flatten (acc.flatten ++ content.drop start.toNat) := by
  intro fuel
  induction fuel with
  | zero =>
    intro start acc pieces h0 h
    exact absurd h (by rw [chunkLoop]; exact fun hh => Option.noConfusion hh)
  | succ fuel ih =>
    intro start acc pieces h0 h
    rw [chunkLoop] at h
    by_cases hst : start < (content.length : ℤ)
    · rw [if_pos hst] at h
      obtain ⟨hse, heL⟩ := chunkEnd_bounds content maxSize start h0 hst
      have h0e : 0 ≤ chunkEnd content maxSize start := le_trans h0 hse
      rw [show chunkEnd content maxSize start - ((0 : ℕ) : ℤ)
          = chunkEnd content maxSize start by simp] at h
      have hdecomp := drop_slice_decomp content start (chunkEnd content maxSize start) h0 hse heL
      by_cases hch : pyStrip (pySlice content start (chunkEnd content maxSize start)) ≠ []
      · rw [if_pos hch] at h
        obtain ⟨ihf, ihs⟩ := ih (chunkEnd content maxSize start)
          (acc ++ [pyStrip (pySlice content start (chunkEnd content maxSize start))]) pieces h0e h
        constructor
        · rw [ihf, hdecomp]
          simp only [List.flatten_append, List.flatten_cons, List.flatten_nil,
            List.filter_append, List.append_nil, List.append_assoc]
          rw [filter_pyStrip]
        · refine ihs.trans ?_
          rw [hdecomp]
          simp only [List.flatten_append, List.flatten_cons, List.flatten_nil,
            List.append_nil, List.append_assoc]
          exact ((pyStrip_sublist _).append (List.Sublist.refl _)).append_left acc.flatten
      · rw [if_neg hch] at h
        push_neg at hch
        obtain ⟨ihf, ihs⟩ := ih (chunkEnd content maxSize start) acc pieces h0e h
        have hemp : (pySlice content start (chunkEnd content maxSize start)).filter
            (fun c => !isPySpace c) = [] := by
          rw [← filter_pyStrip, hch]
          rfl
        constructor
        · rw [ihf, hdecomp, List.filter_append, hemp, List.nil_append]
        · refine ihs.trans ?_
          rw [hdecomp]
          exact ((List.sublist_append_right _ _).append_left acc.flatten)
    · rw [if_neg hst] at h
      obtain rfl : acc = pieces := Option.some.inj h
      have hdrop : content.drop start.toNat = [] :=
        List.drop_eq_nil_of_le (by omega)
      rw [hdrop]
      constructor
      · simp
      · simp

/-- C4: on any input longer than the chunk size, every piece a terminating run
of the Content Chunker returns is at most `max_chunk_size` long and is a
contiguous piece of the input (the window is retracted to a whitespace
boundary or hard-cut); and with zero overlap the concatenation of the pieces
reconstructs the input up to whitespace: it is a sublist of the input that
retains every non-whitespace character in order. -/
theorem chunk_firecrawl_content_spec (fuel : ℕ) (content : List Char)
    (maxSize overlap : ℕ) (pieces : List (List Char))
    (hlen : maxSize < content.length)
    (hrun : chunk_firecrawl_content fuel content maxSize overlap = some pieces) :
    (∀ p ∈ pieces, p.length ≤ maxSize ∧ ∃ pre post, pre ++ p ++ post = content) ∧
      (overlap = 0 →
        List.Sublist pieces.flatten content ∧
          pieces.flatten.filter (fun c => !isPySpace c)
            = content.filter (fun c => !isPySpace c)) := by
  rw [chunk_firecrawl_content, if_neg (by omega)] at hrun
  constructor
  · exact chunkLoop_pieces content maxSize overlap fuel 0 [] pieces hrun (by simp)
  · intro hov
    subst hov
    obtain ⟨hf, hs⟩ := chunkLoop_reconstruct content maxSize fuel 0 [] pieces le_rfl hrun
    constructor
    · simpa using hs
    · simpa using hf

/-- Witness for the C4 theorem on the eight-character input `ab cd ef` with
chunk size 5 and no overlap: the run terminates with pieces `ab`, `cd`, `ef`,
each within the size bound, whose concatenation is the input minus the two
spaces used as split points. -/
theorem chunk_firecrawl_content_spec_witness :
    chunk_firecrawl_content 10 "ab cd ef".toList 5 0
        = some ["ab".toList, "cd".toList, "ef".toList] ∧
      (∀ p ∈ ["ab".toList, "cd".toList, "ef".toList],
        p.length ≤ 5 ∧ ∃ pre post, pre ++ p ++ post = "ab cd ef".toList) ∧
      List.Sublist ["ab".toList, "cd".toList, "ef".toList].flatten "ab cd ef".toList ∧
      ["ab".toList, "cd".toList, "ef".toList].flatten.filter (fun c => !isPySpace c)
        = "ab cd ef".toList.filter (fun c => !isPySpace c) := by
  have h := chunk_firecrawl_content_spec 10 "ab cd ef".toList 5 0
    ["ab".toList, "cd".toList, "ef".toList] (by decide) (by decide)
  exact ⟨by decide, h.1, (h.2 rfl).1, (h.2 rfl).2⟩

end Ingest
